import Mathlib

set_option maxRecDepth 4096

/-!
Verification of the winnowing pipeline (`winnower.py`).

The source file is shallowly embedded below.  Strings are modelled as
`List Char` (Python strings are sequences of code points and all
comparisons in the source are code-point comparisons).  IPv4 addresses
are modelled as natural numbers below 2^32, timestamps as natural
numbers counting whole seconds (the passive-DNS service reports whole
seconds, and the source formats its window bounds with `%H:%M:%S`,
dropping microseconds).  File, configuration and network I/O are outside
the model: the orchestrator receives the already-loaded collaborators in
an `Env` record.
-/

/-- Convenience: the character list of a string literal. -/
def str (s : String) : List Char := s.toList

/-- The character class `[0-9]` of the source regexes. -/
def isDigitCh (c : Char) : Bool :=
  decide (c ∈ ['0', '1', '2', '3', '4', '5', '6', '7', '8', '9'])

/-- Split a character list at a separator character, Python `str.split` /
regex-segmentation style: `splitOnSep '.' "a.b" = ["a", "b"]`,
`splitOnSep '.' "" = [""]`. -/
def splitOnSep (sep : Char) : List Char → List (List Char)
  | [] => [[]]
  | c :: rest =>
    if c = sep then [] :: splitOnSep sep rest
    else
      match splitOnSep sep rest with
      | [] => [[c]]
      | seg :: segs => (c :: seg) :: segs

/-- Joining dot-free segments with a separator; inverse of `splitOnSep`. -/
def joinSep (sep : Char) : List (List Char) → List Char
  | [] => []
  | [x] => x
  | x :: xs => x ++ sep :: joinSep sep xs

/-- Appending one non-separator character to a list extends its last
segment (`splitOnSep`-image of `l ++ [d]`). -/
def extendLast (d : Char) : List (List Char) → List (List Char)
  | [] => [[d]]
  | [x] => [x ++ [d]]
  | x :: xs => x :: extendLast d xs

/-!
## The address/domain classifier (`is_ipv4`, `is_fqdn`)

`is_ipv4` is, in the source,
`re.match(r'(?:(?:25[0-5]|2[0-4][0-9]|[01]?[0-9][0-9]?)\.){3}(?:25[0-5]|2[0-4][0-9]|[01]?[0-9][0-9]?)$', address)`.

The octet pattern contains no dot, so the regex matches exactly when the
string splits on `'.'` into four segments each matching the octet
alternation; the octet alternation, applied to a whole segment, accepts
according to the segment's length as transcribed in `octetRe` below.
Python's `$` (without `re.MULTILINE`) matches at the end of the string
or just before a newline that is its last character, hence the second
disjunct of `is_ipv4`.
-/

/-- Full-segment match of the octet alternation
`25[0-5]|2[0-4][0-9]|[01]?[0-9][0-9]?`, by segment length. -/
def octetRe : List Char → Bool
  | [a] => isDigitCh a
  | [a, b] =>
    (decide (a ∈ ['0', '1']) && isDigitCh b) || (isDigitCh a && isDigitCh b)
  | [a, b, c] =>
    (decide (a = '2') && decide (b = '5') && decide (c ∈ ['0', '1', '2', '3', '4', '5'])) ||
    (decide (a = '2') && decide (b ∈ ['0', '1', '2', '3', '4']) && isDigitCh c) ||
    (decide (a ∈ ['0', '1']) && isDigitCh b && isDigitCh c)
  | _ => false

/-- The quad pattern `(octet\.){3}octet` matched against a whole string. -/
def quadMatch (l : List Char) : Bool :=
  match splitOnSep '.' l with
  | [o1, o2, o3, o4] => octetRe o1 && octetRe o2 && octetRe o3 && octetRe o4
  | _ => false

/-- The source's `is_ipv4` (the trailing disjunct reflects `$`
matching before a final newline). -/
def is_ipv4 (address : List Char) : Bool :=
  quadMatch address ||
    (decide (address.getLast? = some '\n') && quadMatch address.dropLast)

/-- Value of a digit character (`'0'` ↦ 0, …, `'9'` ↦ 9). -/
def digVal (c : Char) : Nat := c.toNat - 48

/-- Decimal value of a digit string. -/
def decVal (l : List Char) : Nat := l.foldl (fun a c => 10 * a + digVal c) 0

/-- The numeric value of a matched dotted quad (model of `netaddr.IPAddress`
applied to a string the `is_ipv4` regex admits: four decimal octets, read
big-endian; `inet_aton` also tolerates the trailing newline `$` admits). -/
def quadVal : List (List Char) → Option Nat
  | [a, b, c, d] =>
    some (((decVal a * 256 + decVal b) * 256 + decVal c) * 256 + decVal d)
  | _ => none

/-- Model of `netaddr.IPAddress(addr)` for the strings the winnower feeds
it (those accepted by `is_ipv4`): the decimal value of the dotted quad,
`none` when the string is not a dotted quad (`IPAddress` would raise). -/
def parseIPv4 (s : List Char) : Option Nat :=
  if quadMatch s then quadVal (splitOnSep '.' s)
  else if s.getLast? = some '\n' && quadMatch s.dropLast then
    quadVal (splitOnSep '.' s.dropLast)
  else none

/-!
`is_fqdn` is, in the source,
`re.match(r'(?=^.{4,255}$)(^((?!-)[a-zA-Z0-9-]{1,63}(?<!-)\.)+[a-zA-Z]{2,63}$)', address)`.

The label classes contain no dot and no newline, so (by the same
segmentation argument as for `is_ipv4`, and with `$` again matching
before a final newline) the regex matches exactly when the string —
after discarding one trailing newline, if present — has length 4 to 255
and splits on `'.'` into at least two segments, all but the last
matching the label pattern and the last matching `[a-zA-Z]{2,63}`.
-/

/-- The character class `[a-z]`. -/
def lowerList : List Char :=
  ['a', 'b', 'c', 'd', 'e', 'f', 'g', 'h', 'i', 'j', 'k', 'l', 'm',
   'n', 'o', 'p', 'q', 'r', 's', 't', 'u', 'v', 'w', 'x', 'y', 'z']

/-- The character class `[A-Z]`. -/
def upperList : List Char :=
  ['A', 'B', 'C', 'D', 'E', 'F', 'G', 'H', 'I', 'J', 'K', 'L', 'M',
   'N', 'O', 'P', 'Q', 'R', 'S', 'T', 'U', 'V', 'W', 'X', 'Y', 'Z']

/-- The character class `[a-zA-Z]` of the final label. -/
def alphaCh (c : Char) : Bool := decide (c ∈ lowerList) || decide (c ∈ upperList)

/-- The character class `[a-zA-Z0-9-]` of the inner labels. -/
def alnumHyphen (c : Char) : Bool := alphaCh c || isDigitCh c || decide (c = '-')

/-- Full-segment match of one inner label,
`(?!-)[a-zA-Z0-9-]{1,63}(?<!-)` followed by the forced `\.`:
one to sixty-three class characters, neither starting nor ending with a
hyphen. -/
def labelRe (t : List Char) : Bool :=
  decide (1 ≤ t.length) && decide (t.length ≤ 63) && t.all alnumHyphen &&
    decide (t.head? ≠ some '-') && decide (t.getLast? ≠ some '-')

/-- Full-segment match of the final label `[a-zA-Z]{2,63}`. -/
def finalRe (t : List Char) : Bool :=
  decide (2 ≤ t.length) && decide (t.length ≤ 63) && t.all alphaCh

/-- The main fqdn pattern `((?!-)[a-zA-Z0-9-]{1,63}(?<!-)\.)+[a-zA-Z]{2,63}`
matched against a whole string. -/
def fqdnMatch (l : List Char) : Bool :=
  let segs := splitOnSep '.' l
  decide (2 ≤ segs.length) && segs.dropLast.all labelRe &&
    (match segs.getLast? with
     | some fin => finalRe fin
     | none => false)

/-- A trailing newline is invisible to the anchors `$` of both regexes:
the part of the string they actually constrain. -/
def stripNl (s : List Char) : List Char :=
  if s.getLast? = some '\n' then s.dropLast else s

/-- The source's `is_fqdn`: the length lookahead `(?=^.{4,255}$)`
plus the label pattern (`.` does not match a newline, and `$` accepts a
final trailing newline, so both constrain `stripNl` of the string). -/
def is_fqdn (address : List Char) : Bool :=
  decide (4 ≤ (stripNl address).length) && decide ((stripNl address).length ≤ 255) &&
    fqdnMatch (stripNl address)

/-!
## The ASN/Org interval index (`load_gi_org`, `org_by_addr`)

`gi_org` is a `SortedDict` keyed by the raw `start` field of each row of
the reference table (the MaxMind table writes addresses as decimal
integer strings), with values `(IPRange(start, end), org)`.  We model it
as a list of entries strictly sorted by key under Python's string
ordering (lexicographic by code point), which `strLt` implements.
`SortedDict.bisect(k)` is `bisect_right` over the sorted keys — the
number of keys `≤ k` — and `iloc[i]` is list indexing, so `iloc[-1]`
wraps to the *last* (greatest-key) entry and raises `IndexError` on an
empty index.
-/

/-- Python string `<` on code-point sequences. -/
def strLt : List Char → List Char → Bool
  | [], [] => false
  | [], _ :: _ => true
  | _ :: _, [] => false
  | a :: as, b :: bs => if a < b then true else if a = b then strLt as bs else false

/-- Python string `≤` (total order, so `a ≤ b ↔ ¬ b < a`). -/
def strLe (a b : List Char) : Bool := !(strLt b a)

/-- One entry of the loaded index: the `SortedDict` key (the raw `start`
string) and the value `(IPRange(start, end), org)`. -/
structure GiEntry where
  key : List Char
  rstart : Nat
  rend : Nat
  org : List Char
deriving DecidableEq

/-- A loaded index: strictly sorted by key, as `SortedDict` maintains. -/
def GiSorted (gi : List GiEntry) : Prop :=
  List.Pairwise (fun a b => strLt a.key b.key = true) gi

/-- The index's `bisect(q)`: `bisect_right` over the sorted keys, i.e. the
number of stored keys `≤ q`. -/
def bisect (gi : List GiEntry) (q : List Char) : Nat :=
  gi.countP (fun e => strLe e.key q)

/-- Python `str.replace("AS", "")`: delete every (left-to-right,
non-overlapping) occurrence of `"AS"`. -/
def replaceAS : List Char → List Char
  | [] => []
  | 'A' :: 'S' :: rest => replaceAS rest
  | c :: rest => c :: replaceAS rest

/-- The body of `org_by_addr` once a candidate entry is picked: if the
address lies in the entry's `IPRange` (both endpoints included), split
the organization label at its first space (`str.partition(' ')`) and
delete `"AS"` from the number token; otherwise keep `(None, None)`. -/
def checkEntry (e : GiEntry) (address : Nat) : Option (List Char) × Option (List Char) :=
  if e.rstart ≤ address ∧ address ≤ e.rend then
    (some (replaceAS (e.org.takeWhile (fun c => c ≠ ' '))),
     some ((e.org.dropWhile (fun c => c ≠ ' ')).drop 1))
  else (none, none)

/-- The source's `org_by_addr`.  The query key is `str(int(address))`;
the candidate is `gi_org.iloc[gi_org.bisect(q) - 1]`, where an index of
`-1` (bisect position `0`) wraps to the last entry, and an empty index
raises `IndexError` (modelled by `none`). -/
def org_by_addr (gi : List GiEntry) (address : Nat) : Option (Option (List Char) × Option (List Char)) :=
  let q := (Nat.repr address).toList
  let i := bisect gi q
  match (if i = 0 then gi.getLast? else gi.get? (i - 1)) with
  | none => none
  | some e => some (checkEntry e address)

/-- Sorted insertion with replacement on an equal key (`SortedDict`
assignment `gi_org[key] = value`). -/
def insertKey : List GiEntry → GiEntry → List GiEntry
  | [], e => [e]
  | x :: xs, e =>
    if strLt e.key x.key then e :: x :: xs
    else if e.key = x.key then e :: xs
    else x :: insertKey xs e

/-- The source's `load_gi_org`: insert each CSV row `(start, end, org)` into the
sorted index, keyed by the raw `start` string; `IPRange(start, end)` on
the table's decimal integer strings yields their decimal values. -/
def load_gi_org (rows : List (List Char × List Char × List Char)) : List GiEntry :=
  rows.foldl
    (fun acc row =>
      insertKey acc
        { key := row.1, rstart := decVal row.1, rend := decVal row.2.1, org := row.2.2 })
    []

/-- The entry the spec's floor lookup designates: the one with the
rightmost (greatest) stored key `≤ q`, if any. -/
def floorEntry (gi : List GiEntry) (q : List Char) : Option GiEntry :=
  (gi.filter (fun e => strLe e.key q)).getLast?

/-!
## The passive-DNS best-match selection (`maxhits`) and date filter
-/

/-- One passive-DNS resolution record as consumed by the winnower:
`rrname`/`rdata` value, observation count, and the observation window.
Timestamps are whole seconds (the service reports epoch seconds). -/
structure PDns where
  rrname : List Char
  count : Nat
  time_first : Nat
  time_last : Nat
deriving DecidableEq

/-- Python `str.rstrip('.')`: drop every trailing dot. -/
def rstripDots (l : List Char) : List Char :=
  (l.reverse.dropWhile (fun c => c = '.')).reverse

/-- The loop of `maxhits`, carrying the running `(max, hostname)` state. -/
def maxhitsAux : List PDns → Nat → Option (List Char) → Option (List Char)
  | [], _, h => h
  | r :: rs, m, h =>
    if m < r.count then maxhitsAux rs r.count (some (rstripDots r.rrname))
    else maxhitsAux rs m h

/-- The source's `maxhits`: fold over the records with initial state
`max = 0`, `hostname = None`, replacing only on a strictly greater count. -/
def maxhits (dns_records : List PDns) : Option (List Char) :=
  maxhitsAux dns_records 0 none

/-- The greatest observation count in a record sequence (`0` if empty). -/
def maxCount (recs : List PDns) : Nat :=
  recs.foldr (fun r a => max r.count a) 0

/-- The selection the specification describes: the first record whose
count equals the maximum, its hostname stripped of trailing dots. -/
def specBest (recs : List PDns) : Option (List Char) :=
  (recs.find? (fun r => decide (r.count = maxCount recs))).map
    (fun r => rstripDots r.rrname)

/-- Model of the external `dnsdb_query.filter_after`.
Modelled from the spec: the date-window filter "discards a record unless
`first_seen ≤ window_end` AND `last_seen ≥ window_start`"; `filter_after`
is the `last_seen ≥ window_start` half. -/
def filter_after (records : List PDns) (window_start : Nat) : List PDns :=
  records.filter (fun r => decide (window_start ≤ r.time_last))

/-- Model of the external `dnsdb_query.filter_before`.
Modelled from the spec: the `first_seen ≤ window_end` half of the
date-window filter. -/
def filter_before (records : List PDns) (window_end : Nat) : List PDns :=
  records.filter (fun r => decide (r.time_first ≤ window_end))

/-- Seconds from midnight to `23:59:59` — the source renders
`datetime.time.max` with `'%Y-%m-%d %H:%M:%S'`, so the window's end is
the day's last whole second. -/
def daySeconds : Nat := 86399

/-- The source's `filter_date`: `date` is the queried day's midnight
(`datetime.combine(date, time.min)`), and the kept records are
`filter_before(filter_after(records, 00:00:00), 23:59:59)`. -/
def filter_date (records : List PDns) (dayStart : Nat) : List PDns :=
  filter_before (filter_after records dayStart) (dayStart + daySeconds)

/-!
## The reserved-range filter (`reserved`)
-/

/-- A CIDR block `a.b.c.d/maskBits` as an inclusive numeric range. -/
def cidr (a b c d maskBits : Nat) : Nat × Nat :=
  let base := ((a * 256 + b) * 256 + c) * 256 + d
  (base, base + 2 ^ (32 - maskBits) - 1)

/-- The fixed module-level `reserved_ranges` `IPSet` of the source. -/
def reserved_ranges : List (Nat × Nat) :=
  [cidr 0 0 0 0 8, cidr 100 64 0 0 10, cidr 127 0 0 0 8, cidr 192 88 99 0 24,
   cidr 198 18 0 0 15, cidr 198 51 100 0 24, cidr 203 0 113 0 24, cidr 233 252 0 0 24]

/-- Membership test `address in reserved_ranges`. -/
def inReservedRanges (address : Nat) : Bool :=
  reserved_ranges.any (fun p => decide (p.1 ≤ address ∧ address ≤ p.2))

/-- The source's `reserved`.  `netaddr`'s `is_reserved()` and
`is_private()` classifications are external collaborators, passed in as
abstract predicates on numeric addresses. -/
def reserved (isResv isPriv : Nat → Bool) (address : Nat) : Bool :=
  isResv address || isPriv address || inReservedRanges address

/-!
## The enrichment orchestrator (`winnow`)

`winnow`'s configuration reading, file I/O and client start-up happen
before the per-record loop; the loop itself receives the already-loaded
collaborators, which we package in `Env`.  Indicator dates are modelled
by the parsed day's midnight timestamp (`strptime` on `%Y-%m-%d`).
Records on which the loop would raise (an `IPAddress` parse failure, or
`org_by_addr`'s `IndexError` on an empty index) abort the whole run
before any output is written, modelled by a `none` overall result.
-/

/-- One indicator record of the input batch (a six-element tuple). -/
structure Indicator where
  addr : List Char
  addr_type : List Char
  direction : List Char
  source : List Char
  note : List Char
  date : Nat
deriving DecidableEq

/-- The passive-DNS client: both query directions, as loaded lists of
resolution records.  `query_rdata_ip` is keyed by the parsed address
(the source formats it back to its canonical string). -/
structure DnsClient where
  query_rdata_ip : Nat → List PDns
  query_rrset : List Char → List PDns

/-- The collaborators and configuration the loop of `winnow` closes over. -/
structure Env where
  enrich_ip : Bool
  enrich_dns : Bool
  dnsdb : Option DnsClient
  geo_data : Nat → Option (List Char)
  gi : List GiEntry
  is_private : Nat → Bool
  is_reserved : Nat → Bool

/-- One entry of the enriched output: the record's six fields plus the
type-dependent enrichment tail (five fields for `IPv4` — the fourth is
the constant `None` slot of the source tuple — one field for `FQDN`). -/
inductive Enriched where
  | ipv4 (r : Indicator) (as_num as_name country reservedField hostname : Option (List Char))
  | fqdn (r : Indicator) (resolved : Option (List Char))
deriving DecidableEq

/-- The indicator record an enriched entry was derived from. -/
def Enriched.record : Enriched → Indicator
  | .ipv4 r _ _ _ _ _ => r
  | .fqdn r _ => r

/-- The per-record logger calls of the loop. -/
inductive LogEvent where
  | errorInvalid (addr source : List Char)
  | errorBadType (addr declaredType : List Char)
  | infoMapped (addr resolved : List Char)
deriving DecidableEq

/-- The source's `enrich_IPv4`: org lookup, country lookup, the
constant `None` slot, and the reverse-DNS hostname — the latter only
when a client was passed in.  Propagates `org_by_addr`'s failure. -/
def enrich_IPv4 (gi : List GiEntry) (address : Nat) (geo_data : Nat → Option (List Char))
    (dnsdb : Option DnsClient) :
    Option (Option (List Char) × Option (List Char) × Option (List Char) ×
      Option (List Char) × Option (List Char)) :=
  match org_by_addr gi address with
  | none => none
  | some (as_num, as_name) =>
    some (as_num, as_name, geo_data address, none,
      match dnsdb with
      | some c => maxhits (c.query_rdata_ip address)
      | none => none)

/-- The source's `enrich_FQDN`: forward `A`-record query, date-window
filter, best match. -/
def enrich_FQDN (dnsdb : DnsClient) (address : List Char) (date : Nat) : Option (List Char) :=
  maxhits (filter_date (dnsdb.query_rrset address) date)

/-- One iteration of the `winnow` loop: the record's contribution to the
cleaned output, to the enriched output, and to the log. -/
def winnowStep (env : Env) (r : Indicator) :
    Option (Option Indicator × Option Enriched × List LogEvent) :=
  if r.addr_type = str "IPv4" ∧ is_ipv4 r.addr = true then
    match parseIPv4 r.addr with
    | none => none
    | some ipaddr =>
      if reserved env.is_reserved env.is_private ipaddr = true then
        some (none, none, [LogEvent.errorInvalid r.addr r.source])
      else
        match (if env.enrich_ip then enrich_IPv4 env.gi ipaddr env.geo_data env.dnsdb
               else enrich_IPv4 env.gi ipaddr env.geo_data none) with
        | none => none
        | some (as_num, as_name, country, resv, hostname) =>
          some (some r, some (Enriched.ipv4 r as_num as_name country resv hostname), [])
  else if r.addr_type = str "FQDN" ∧ is_fqdn r.addr = true then
    match env.dnsdb with
    | some client =>
      if env.enrich_dns then
        some (some r, some (Enriched.fqdn r (enrich_FQDN client r.addr r.date)),
          match enrich_FQDN client r.addr r.date with
          | some ip => [LogEvent.infoMapped r.addr ip]
          | none => [])
      else some (some r, none, [])
    | none => some (some r, none, [])
  else some (none, none, [LogEvent.errorBadType r.addr r.addr_type])

/-- The `winnow` loop over the input batch, accumulating `wheat` (the
cleaned output), `enriched`, and the log, in input order. -/
def winnow (env : Env) : List Indicator → Option (List Indicator × List Enriched × List LogEvent)
  | [] => some ([], [], [])
  | r :: rest =>
    match winnowStep env r, winnow env rest with
    | some (w1, e1, l1), some (ws, es, ls) =>
      some (w1.toList ++ ws, e1.toList ++ es, l1 ++ ls)
    | _, _ => none

/-- Whether a record survives classification and reserved-range
filtering (the condition under which the loop appends it to `wheat`). -/
def survives (env : Env) (r : Indicator) : Bool :=
  if r.addr_type = str "IPv4" ∧ is_ipv4 r.addr = true then
    match parseIPv4 r.addr with
    | some ipaddr => !(reserved env.is_reserved env.is_private ipaddr)
    | none => false
  else if r.addr_type = str "FQDN" ∧ is_fqdn r.addr = true then true
  else false

/-- The record's address denotes reserved space: it parses as an IPv4
address whose parse satisfies `reserved`. -/
def reservedAddrP (env : Env) (r : Indicator) : Prop :=
  ∃ a, parseIPv4 r.addr = some a ∧ reserved env.is_reserved env.is_private a = true

/-- A dotted quad of four decimal numerals. -/
def quadStr (a b c d : Nat) : List Char :=
  (Nat.repr a).toList ++ '.' ::
    ((Nat.repr b).toList ++ '.' :: ((Nat.repr c).toList ++ '.' :: (Nat.repr d).toList))

/-!
## The shape the specification describes for `is_fqdn`
-/

/-- An inner label as the specification describes it: 1–63
alphanumeric-or-hyphen characters, not starting or ending with a hyphen. -/
def LabelOk (t : List Char) : Prop :=
  1 ≤ t.length ∧ t.length ≤ 63 ∧ (∀ c ∈ t, alnumHyphen c = true) ∧
    t.head? ≠ some '-' ∧ t.getLast? ≠ some '-'

/-- The final label as the specification describes it: 2–63 alphabetic
characters. -/
def FinalOk (t : List Char) : Prop :=
  2 ≤ t.length ∧ t.length ≤ 63 ∧ ∀ c ∈ t, alphaCh c = true

/-- The shape the specification ascribes to `is_fqdn`'s accepted
strings: total length 4–255, one or more dot-separated inner labels
followed by a final all-alphabetic label. -/
def FqdnShape (s : List Char) : Prop :=
  4 ≤ s.length ∧ s.length ≤ 255 ∧
    ∃ labels fin, labels ≠ [] ∧ s = joinSep '.' (labels ++ [fin]) ∧
      (∀ lab ∈ labels, LabelOk lab) ∧ FinalOk fin

/-- The hostname half of `enrich_IPv4`: query the client if one was
passed, `None` otherwise. -/
def hostLookup (db : Option DnsClient) (ip : Nat) : Option (List Char) :=
  match db with
  | some c => maxhits (c.query_rdata_ip ip)
  | none => none

/-!
## Concrete fixtures for witnesses and counterexamples
-/

/-- The one-interval example index (`10.0.0.0`–`10.255.255.255`). -/
def exGi : List GiEntry :=
  load_gi_org [(str "167772160", str "184549375", str "AS100 Example Org")]

/-- An environment with both enrichment flags off and no DNS client. -/
def envOff : Env :=
  { enrich_ip := false, enrich_dns := false, dnsdb := none,
    geo_data := fun _ => none, gi := exGi,
    is_private := fun _ => false, is_reserved := fun _ => false }

/-- A canned passive-DNS client: one reverse record for every address. -/
def exClient : DnsClient :=
  { query_rdata_ip := fun _ => [⟨str "host.example.", 5, 0, 0⟩],
    query_rrset := fun _ => [] }

/-- IPv4 enrichment on, DNS enrichment *off*, but a working DNS client. -/
def envDnsOff : Env :=
  { enrich_ip := true, enrich_dns := false, dnsdb := some exClient,
    geo_data := fun _ => none, gi := exGi,
    is_private := fun _ => false, is_reserved := fun _ => false }

def recIp : Indicator :=
  ⟨str "8.8.8.8", str "IPv4", str "inbound", str "feedA", str "note1", 0⟩

def recRes : Indicator :=
  ⟨str "127.0.0.1", str "IPv4", str "inbound", str "feedA", str "note2", 0⟩

def recFq : Indicator :=
  ⟨str "ab.cd", str "FQDN", str "inbound", str "feedA", str "note3", 0⟩

def recBad : Indicator :=
  ⟨str "zzz", str "IPv4", str "inbound", str "feedA", str "note4", 0⟩

/-- A record with a reserved address (`0.0.0.1` lies in `0.0.0.0/8`) but
a mismatched declared type. -/
def recResBad : Indicator :=
  ⟨str "0.0.0.1", str "FQDN", str "inbound", str "srcA", str "n", 0⟩

def exBatch : List Indicator := [recIp, recRes, recFq, recBad]

theorem splitOnSep_ne_nil (sep : Char) (l : List Char) : splitOnSep sep l ≠ [] := by
  induction l with
  | nil => simp [splitOnSep]
  | cons c rest ih =>
    simp only [splitOnSep]
    split
    · simp
    · split
      · simp
      · simp

theorem joinSep_splitOnSep (sep : Char) (l : List Char) :
    joinSep sep (splitOnSep sep l) = l := by
  induction l with
  | nil => simp [splitOnSep, joinSep]
  | cons c rest ih =>
    simp only [splitOnSep]
    split
    · rename_i h
      rcases hs : splitOnSep sep rest with _ | ⟨seg, segs⟩
      · exact absurd hs (splitOnSep_ne_nil sep rest)
      · rw [hs] at ih
        simp [joinSep, ih, h]
    · rcases hs : splitOnSep sep rest with _ | ⟨seg, segs⟩
      · exact absurd hs (splitOnSep_ne_nil sep rest)
      · rw [hs] at ih
        rcases segs with _ | ⟨s2, ss⟩
        · simp_all [joinSep]
        · simp_all [joinSep]

theorem splitOnSep_all_single (sep : Char) (l : List Char) (h : sep ∉ l) :
    splitOnSep sep l = [l] := by
  induction l with
  | nil => rfl
  | cons c rest ih =>
    simp only [List.mem_cons, not_or] at h
    simp only [splitOnSep, if_neg (Ne.symm h.1), ih h.2]

theorem splitOnSep_append_sep (sep : Char) (a rest : List Char) (h : sep ∉ a) :
    splitOnSep sep (a ++ sep :: rest) = a :: splitOnSep sep rest := by
  induction a with
  | nil => simp [splitOnSep]
  | cons c as ih =>
    simp only [List.mem_cons, not_or] at h
    simp only [List.cons_append, splitOnSep, if_neg (Ne.symm h.1)]
    rw [show as.append (sep :: rest) = as ++ sep :: rest from rfl, ih h.2]

theorem extendLast_length (d : Char) (segs : List (List Char)) :
    (extendLast d segs).length = max 1 segs.length := by
  induction segs with
  | nil => simp [extendLast]
  | cons x xs ih =>
    rcases xs with _ | ⟨y, ys⟩
    · simp [extendLast]
    · simp only [extendLast, List.length_cons] at *
      omega

theorem mem_extendLast (d : Char) :
    ∀ (segs : List (List Char)) (seg : List Char), segs ≠ [] →
      seg ∈ extendLast d segs → seg ∈ segs ∨ ∃ x, x ∈ segs ∧ seg = x ++ [d] := by
  intro segs
  induction segs with
  | nil => intro seg hne _; exact absurd rfl hne
  | cons x xs ih =>
    intro seg _ h
    rcases xs with _ | ⟨y, ys⟩
    · simp only [extendLast, List.mem_singleton] at h
      exact Or.inr ⟨x, by simp [h]⟩
    · simp only [extendLast, List.mem_cons] at h
      rcases h with h | h
      · exact Or.inl (by simp [h])
      · rcases ih seg (by simp) h with h' | ⟨z, hz, he⟩
        · exact Or.inl (List.mem_cons_of_mem _ h')
        · exact Or.inr ⟨z, List.mem_cons_of_mem _ hz, he⟩

theorem splitOnSep_append_single (sep d : Char) (hd : d ≠ sep) (l : List Char) :
    splitOnSep sep (l ++ [d]) = extendLast d (splitOnSep sep l) := by
  induction l with
  | nil => simp [splitOnSep, if_neg hd, extendLast]
  | cons c rest ih =>
    simp only [List.cons_append, splitOnSep]
    split
    · rw [show rest.append [d] = rest ++ [d] from rfl, ih]
      rcases hs : splitOnSep sep rest with _ | ⟨seg, segs⟩
      · exact absurd hs (splitOnSep_ne_nil sep rest)
      · rfl
    · rw [show rest.append [d] = rest ++ [d] from rfl, ih]
      rcases hs : splitOnSep sep rest with _ | ⟨seg, segs⟩
      · exact absurd hs (splitOnSep_ne_nil sep rest)
      · rcases segs with _ | ⟨s2, ss⟩
        · simp [extendLast]
        · simp [extendLast]

theorem memElim2 (c : Char) (h : c ∈ ['0', '1']) : c = '0' ∨ c = '1' := by simpa using h

theorem memElim5 (c : Char) (h : c ∈ ['0', '1', '2', '3', '4']) :
    c = '0' ∨ c = '1' ∨ c = '2' ∨ c = '3' ∨ c = '4' := by simpa using h

theorem memElim6 (c : Char) (h : c ∈ ['0', '1', '2', '3', '4', '5']) :
    c = '0' ∨ c = '1' ∨ c = '2' ∨ c = '3' ∨ c = '4' ∨ c = '5' := by simpa using h

theorem digit_cases (c : Char) (h : isDigitCh c = true) :
    c = '0' ∨ c = '1' ∨ c = '2' ∨ c = '3' ∨ c = '4' ∨ c = '5' ∨ c = '6' ∨ c = '7' ∨
      c = '8' ∨ c = '9' := by
  have := of_decide_eq_true h
  simpa using this

theorem digVal_le_nine (c : Char) (h : isDigitCh c = true) : digVal c ≤ 9 := by
  rcases digit_cases c h with h | h | h | h | h | h | h | h | h | h <;> subst h <;> decide

theorem decVal_le_255_of_octetRe (seg : List Char) (h : octetRe seg = true) :
    decVal seg ≤ 255 := by
  match seg with
  | [] => simp [octetRe] at h
  | [a] =>
    have := digVal_le_nine a h
    simp only [decVal, List.foldl]
    omega
  | [a, b] =>
    simp only [octetRe, Bool.or_eq_true, Bool.and_eq_true, decide_eq_true_eq] at h
    have hb : digVal b ≤ 9 := by
      rcases h with ⟨_, hb⟩ | ⟨_, hb⟩ <;> exact digVal_le_nine b hb
    have ha : digVal a ≤ 9 := by
      rcases h with ⟨ha, _⟩ | ⟨ha, _⟩
      · rcases memElim2 a ha with h' | h' <;> subst h' <;> decide
      · exact digVal_le_nine a ha
    simp only [decVal, List.foldl]
    omega
  | [a, b, c] =>
    simp only [octetRe, Bool.or_eq_true, Bool.and_eq_true, decide_eq_true_eq] at h
    simp only [decVal, List.foldl]
    rcases h with (⟨⟨ha, hb⟩, hc⟩ | ⟨⟨ha, hb⟩, hc⟩) | ⟨⟨ha, hb⟩, hc⟩
    · subst ha hb
      rcases memElim6 c hc with h' | h' | h' | h' | h' | h' <;> subst h' <;> decide
    · subst ha
      have hc9 := digVal_le_nine c hc
      have hb5 : digVal b ≤ 4 := by
        rcases memElim5 b hb with h' | h' | h' | h' | h' <;> subst h' <;> decide
      have : digVal '2' = 2 := by decide
      omega
    · have ha1 : digVal a ≤ 1 := by
        rcases memElim2 a ha with h' | h' <;> subst h' <;> decide
      have hb9 := digVal_le_nine b hb
      have hc9 := digVal_le_nine c hc
      omega
  | a :: b :: c :: d :: rest => simp [octetRe] at h

theorem octetRe_false_of_large (seg : List Char) (h : 256 ≤ decVal seg) :
    octetRe seg = false := by
  cases heq : octetRe seg
  · rfl
  · have := decVal_le_255_of_octetRe seg heq
    omega

theorem octetRe_getLast_digit (seg : List Char) (h : octetRe seg = true) :
    ∃ c, seg.getLast? = some c ∧ isDigitCh c = true := by
  match seg with
  | [] => simp [octetRe] at h
  | [a] => exact ⟨a, rfl, h⟩
  | [a, b] =>
    simp only [octetRe, Bool.or_eq_true, Bool.and_eq_true, decide_eq_true_eq] at h
    refine ⟨b, rfl, ?_⟩
    rcases h with ⟨_, hb⟩ | ⟨_, hb⟩ <;> exact hb
  | [a, b, c] =>
    simp only [octetRe, Bool.or_eq_true, Bool.and_eq_true, decide_eq_true_eq] at h
    refine ⟨c, rfl, ?_⟩
    rcases h with (⟨⟨_, _⟩, hc⟩ | ⟨⟨_, _⟩, hc⟩) | ⟨⟨_, _⟩, hc⟩
    · rcases memElim6 c hc with h' | h' | h' | h' | h' | h' <;> subst h' <;> decide
    · exact hc
    · exact hc
  | a :: b :: c :: d :: rest => simp [octetRe] at h

theorem extendLast_ne_nil (d : Char) (segs : List (List Char)) :
    extendLast d segs ≠ [] := by
  rcases segs with _ | ⟨x, _ | ⟨y, ys⟩⟩ <;> simp [extendLast]

theorem extendLast_getLast? (d : Char) :
    ∀ (segs : List (List Char)), segs ≠ [] →
      (extendLast d segs).getLast? = (segs.getLast?).map (fun x => x ++ [d]) := by
  intro segs
  induction segs with
  | nil => intro hne; exact absurd rfl hne
  | cons x xs ih =>
    intro _
    rcases xs with _ | ⟨y, ys⟩
    · simp [extendLast]
    · simp only [extendLast]
      rcases hz : extendLast d (y :: ys) with _ | ⟨z, zs⟩
      · exact absurd hz (extendLast_ne_nil d (y :: ys))
      · rw [List.getLast?_cons_cons, ← hz, ih (by simp), List.getLast?_cons_cons]

theorem quadMatch_quadVal_isSome (l : List Char) (h : quadMatch l = true) :
    ∃ v, quadVal (splitOnSep '.' l) = some v := by
  unfold quadMatch at h
  rcases hs : splitOnSep '.' l with _ | ⟨o1, _ | ⟨o2, _ | ⟨o3, _ | ⟨o4, _ | ⟨o5, os⟩⟩⟩⟩⟩ <;>
    rw [hs] at h <;> simp [quadVal] at h ⊢

theorem parseIPv4_isSome_of_is_ipv4 (s : List Char) (h : is_ipv4 s = true) :
    ∃ v, parseIPv4 s = some v := by
  unfold is_ipv4 at h
  unfold parseIPv4
  rw [Bool.or_eq_true] at h
  rcases h with h1 | h2
  · rw [if_pos h1]
    exact quadMatch_quadVal_isSome s h1
  · rw [Bool.and_eq_true] at h2
    obtain ⟨hl, hq⟩ := h2
    by_cases hq1 : quadMatch s = true
    · rw [if_pos hq1]
      exact quadMatch_quadVal_isSome s hq1
    · rw [if_neg (by simpa using hq1), if_pos (by rw [hq, Bool.and_true]; exact hl)]
      exact quadMatch_quadVal_isSome s.dropLast hq

example : is_ipv4 (str "8.8.8.8") = true := by decide

example : is_ipv4 (str "255.255.255.255") = true := by decide

example : is_ipv4 (str "256.1.1.1") = false := by decide

example : is_ipv4 (str "1.2.3") = false := by decide

example : is_ipv4 (str "1.2.3.4.5") = false := by decide

example : is_ipv4 ('1' :: '.' :: '2' :: '.' :: '3' :: '.' :: '4' :: ['\n']) = true := by decide

example : decVal (str "256") = 256 := by decide

example : is_fqdn (str "ab.cd") = true := by decide

example : is_fqdn (str "example.com") = true := by decide

example : is_fqdn (str "a.b") = false := by decide

example : is_fqdn (str "127.0.0.1") = false := by decide

example : is_fqdn (str "-a.com") = false := by decide

example : is_fqdn (str "a-.com") = false := by decide

example : is_fqdn (str "ab..com") = false := by decide

example : is_fqdn (str "abcom") = false := by decide

example : is_fqdn ('a' :: 'b' :: '.' :: 'c' :: 'd' :: ['\n']) = true := by decide

theorem alpha_not_digit (c : Char) (h : alphaCh c = true) : isDigitCh c = false := by
  have h1 : ∀ x ∈ lowerList, isDigitCh x = false := by decide
  have h2 : ∀ x ∈ upperList, isDigitCh x = false := by decide
  rw [alphaCh, Bool.or_eq_true, decide_eq_true_eq, decide_eq_true_eq] at h
  rcases h with h | h
  · exact h1 c h
  · exact h2 c h

theorem alnumHyphen_not_dot (c : Char) (h : alnumHyphen c = true) : c ≠ '.' := by
  rw [alnumHyphen, Bool.or_eq_true, Bool.or_eq_true, decide_eq_true_eq] at h
  rcases h with (h | h) | h
  · rw [alphaCh, Bool.or_eq_true, decide_eq_true_eq, decide_eq_true_eq] at h
    have h1 : ∀ x ∈ lowerList, x ≠ '.' := by decide
    have h2 : ∀ x ∈ upperList, x ≠ '.' := by decide
    rcases h with h | h
    · exact h1 c h
    · exact h2 c h
  · rw [isDigitCh, decide_eq_true_eq] at h
    have h1 : ∀ x ∈ ['0', '1', '2', '3', '4', '5', '6', '7', '8', '9'], x ≠ '.' := by decide
    exact h1 c h
  · rw [h]; decide

theorem digit_not_nl (c : Char) (h : isDigitCh c = true) : c ≠ '\n' := by
  rw [isDigitCh, decide_eq_true_eq] at h
  have h1 : ∀ x ∈ ['0', '1', '2', '3', '4', '5', '6', '7', '8', '9'], x ≠ '\n' := by decide
  exact h1 c h

theorem strLt_trans :
    ∀ (a b c : List Char), strLt a b = true → strLt b c = true → strLt a c = true := by
  intro a
  induction a with
  | nil =>
    intro b c hab hbc
    cases b with
    | nil => simp [strLt] at hab
    | cons x xs =>
      cases c with
      | nil => simp [strLt] at hbc
      | cons y ys => simp [strLt]
  | cons x xs ih =>
    intro b c hab hbc
    cases b with
    | nil => simp [strLt] at hab
    | cons y ys =>
      cases c with
      | nil => simp [strLt] at hbc
      | cons z zs =>
        simp only [strLt] at hab hbc ⊢
        by_cases hxy : x < y
        · by_cases hyz : y < z
          · rw [if_pos (lt_trans hxy hyz)]
          · rw [if_neg hyz] at hbc
            by_cases hyz' : y = z
            · subst hyz'; rw [if_pos hxy]
            · rw [if_neg hyz'] at hbc; cases hbc
        · rw [if_neg hxy] at hab
          by_cases hxy' : x = y
          · subst hxy'
            rw [if_pos rfl] at hab
            by_cases hxz : x < z
            · rw [if_pos hxz]
            · rw [if_neg hxz] at hbc ⊢
              by_cases hxz' : x = z
              · rw [if_pos hxz'] at hbc ⊢
                exact ih ys zs hab hbc
              · rw [if_neg hxz'] at hbc; cases hbc
          · rw [if_neg hxy'] at hab; cases hab

theorem bisect_floor :
    ∀ (gi : List GiEntry) (q : List Char), GiSorted gi → 0 < bisect gi q →
      gi.get? (bisect gi q - 1) = floorEntry gi q := by
  intro gi
  induction gi with
  | nil => intro q _ hpos; simp [bisect] at hpos
  | cons e rest ih =>
    intro q hs hpos
    have hpw : ∀ x ∈ rest, strLt e.key x.key = true := (List.pairwise_cons.mp hs).1
    have hs' : GiSorted rest := (List.pairwise_cons.mp hs).2
    by_cases he : strLe e.key q = true
    · have hb : bisect (e :: rest) q = bisect rest q + 1 := by
        simp [bisect, List.countP_cons, he]
      by_cases hr : 0 < bisect rest q
      · have hne : (rest.filter (fun e => strLe e.key q)) ≠ [] := by
          intro hnil
          rw [bisect, List.countP_eq_length_filter, hnil] at hr
          simp at hr
        rcases hf : rest.filter (fun e => strLe e.key q) with _ | ⟨f, fs⟩
        · exact absurd hf hne
        · rw [hb]
          have h1 : bisect rest q + 1 - 1 = bisect rest q := by omega
          rw [h1]
          obtain ⟨k, hk⟩ : ∃ k, bisect rest q = k + 1 := ⟨bisect rest q - 1, by omega⟩
          have h3 := ih q hs' hr
          rw [hk] at h3 ⊢
          have h2 : (e :: rest).get? (k + 1) = rest.get? k := rfl
          rw [h2]
          simp only [Nat.add_sub_cancel] at h3
          rw [h3]
          unfold floorEntry
          rw [List.filter_cons_of_pos (by simpa using he), hf,
            List.getLast?_cons_cons]
      · have hr0 : bisect rest q = 0 := by omega
        have hfe : rest.filter (fun e => strLe e.key q) = [] := by
          have h0 := hr0
          rw [bisect, List.countP_eq_length_filter] at h0
          exact List.length_eq_zero.mp h0
        rw [hb, hr0]
        have h1 : (0 : Nat) + 1 - 1 = 0 := rfl
        rw [h1]
        unfold floorEntry
        rw [List.filter_cons_of_pos (by simpa using he), hfe]
        rfl
    · have hb : bisect (e :: rest) q = bisect rest q := by
        simp [bisect, List.countP_cons, he]
      have hrest : bisect rest q = 0 := by
        rw [bisect, List.countP_eq_zero]
        intro x hx
        have hlt : strLt q e.key = true := by
          rcases hq : strLt q e.key
          · rw [strLe, hq] at he; simp at he
          · rfl
        have := strLt_trans q e.key x.key hlt (hpw x hx)
        simp only [strLe, this, Bool.not_true, Bool.not_eq_true]
      rw [hb, hrest] at hpos
      exact absurd hpos (by omega)

theorem maxCount_cons (r : PDns) (rs : List PDns) :
    maxCount (r :: rs) = max r.count (maxCount rs) := rfl

theorem maxhitsAux_spec :
    ∀ (rs : List PDns) (m : Nat) (h : Option (List Char)),
      maxhitsAux rs m h =
        if m < maxCount rs then
          (rs.find? (fun r => decide (r.count = maxCount rs))).map
            (fun r => rstripDots r.rrname)
        else h := by
  intro rs
  induction rs with
  | nil =>
    intro m h
    simp [maxhitsAux, maxCount]
  | cons r rest ih =>
    intro m h
    simp only [maxhitsAux, maxCount_cons]
    by_cases hrm : m < r.count
    · rw [if_pos hrm, ih]
      by_cases hrest : r.count < maxCount rest
      · rw [if_pos hrest, if_pos (by omega)]
        have hfind : (r :: rest).find? (fun x => decide (x.count = max r.count (maxCount rest)))
            = rest.find? (fun x => decide (x.count = max r.count (maxCount rest))) := by
          rw [List.find?_cons_of_neg]
          simp only [decide_eq_true_eq]
          omega
        rw [hfind]
        have hmax : max r.count (maxCount rest) = maxCount rest := by omega
        simp only [hmax]
      · rw [if_neg hrest, if_pos (by omega)]
        have hmax : max r.count (maxCount rest) = r.count := by omega
        simp only [hmax]
        rw [List.find?_cons_of_pos]
        · rfl
        · simp
    · rw [if_neg hrm, ih]
      by_cases hrest : m < maxCount rest
      · rw [if_pos hrest, if_pos (by omega)]
        have hmax : max r.count (maxCount rest) = maxCount rest := by omega
        simp only [hmax]
        rw [List.find?_cons_of_neg]
        simp only [decide_eq_true_eq]
        omega
      · rw [if_neg hrest, if_neg (by omega)]

example : inReservedRanges 1 = true := by decide

example : inReservedRanges (cidr 127 0 0 1 32).1 = true := by decide

example : inReservedRanges (cidr 8 8 8 8 32).1 = false := by decide

/-!
## Bridging lemmas between the two classifiers
-/

theorem quadMatch_false_of_fqdnMatch (l : List Char) (h : fqdnMatch l = true) :
    quadMatch l = false := by
  cases hq : quadMatch l
  · rfl
  · exfalso
    unfold quadMatch at hq
    rcases hsegs : splitOnSep '.' l with
        _ | ⟨o1, _ | ⟨o2, _ | ⟨o3, _ | ⟨o4, _ | ⟨o5, os⟩⟩⟩⟩⟩ <;>
      rw [hsegs] at hq <;> try simp at hq
    unfold fqdnMatch at h
    rw [hsegs] at h
    simp only [List.getLast?_cons_cons, List.getLast?_singleton, Bool.and_eq_true] at h
    obtain ⟨⟨_, _⟩, hfin⟩ := h
    obtain ⟨⟨⟨ho1, ho2⟩, ho3⟩, ho4⟩ :
        ((octetRe o1 = true ∧ octetRe o2 = true) ∧ octetRe o3 = true) ∧ octetRe o4 = true := by
      simpa using hq
    obtain ⟨c, hc, hdig⟩ := octetRe_getLast_digit o4 ho4
    rw [finalRe, Bool.and_eq_true, Bool.and_eq_true, List.all_eq_true] at hfin
    have halpha : alphaCh c = true := hfin.2 c (List.mem_of_mem_getLast? hc)
    rw [alpha_not_digit c halpha] at hdig
    cases hdig

theorem parseIPv4_eq_none_of_is_fqdn (s : List Char) (h : is_fqdn s = true) :
    parseIPv4 s = none := by
  rw [is_fqdn, Bool.and_eq_true, Bool.and_eq_true] at h
  obtain ⟨⟨_, _⟩, hmatch⟩ := h
  by_cases hnl : s.getLast? = some '\n'
  · have hcore : stripNl s = s.dropLast := by rw [stripNl, if_pos hnl]
    rw [hcore] at hmatch
    have hsplit : s = s.dropLast ++ ['\n'] := (List.dropLast_append_getLast? _ hnl).symm
    have hquad : quadMatch s = false := by
      cases hq : quadMatch s
      · rfl
      · exfalso
        unfold quadMatch at hq
        rcases hsegs : splitOnSep '.' s with
            _ | ⟨o1, _ | ⟨o2, _ | ⟨o3, _ | ⟨o4, _ | ⟨o5, os⟩⟩⟩⟩⟩ <;>
          rw [hsegs] at hq <;> try simp at hq
        obtain ⟨⟨⟨ho1, ho2⟩, ho3⟩, ho4⟩ :
            ((octetRe o1 = true ∧ octetRe o2 = true) ∧ octetRe o3 = true) ∧
              octetRe o4 = true := by
          simpa using hq
        have hsp : splitOnSep '.' s = extendLast '\n' (splitOnSep '.' s.dropLast) := by
          conv_lhs => rw [hsplit]
          exact splitOnSep_append_single '.' '\n' (by decide) s.dropLast
        have hlast : (splitOnSep '.' s).getLast? =
            ((splitOnSep '.' s.dropLast).getLast?).map (fun x => x ++ ['\n']) := by
          rw [hsp]
          exact extendLast_getLast? '\n' _ (splitOnSep_ne_nil '.' s.dropLast)
        rw [hsegs] at hlast
        simp only [List.getLast?_cons_cons, List.getLast?_singleton] at hlast
        obtain ⟨x, _, hx⟩ := Option.map_eq_some'.mp hlast.symm
        obtain ⟨c, hc, hdig⟩ := octetRe_getLast_digit o4 ho4
        rw [← hx] at hc
        rw [List.getLast?_concat] at hc
        have : c = '\n' := by injection hc with h'; exact h'.symm
        subst this
        exact absurd hdig (by decide)
    have hquad2 : quadMatch s.dropLast = false := quadMatch_false_of_fqdnMatch _ hmatch
    rw [parseIPv4, if_neg (by simp [hquad]), hquad2]
    simp
  · have hcore : stripNl s = s := by rw [stripNl, if_neg hnl]
    rw [hcore] at hmatch
    have hquad : quadMatch s = false := quadMatch_false_of_fqdnMatch _ hmatch
    rw [parseIPv4, if_neg (by simp [hquad])]
    simp [hnl]

theorem splitOnSep_joinSep (sep : Char) :
    ∀ (segs : List (List Char)), segs ≠ [] → (∀ seg ∈ segs, sep ∉ seg) →
      splitOnSep sep (joinSep sep segs) = segs := by
  intro segs
  induction segs with
  | nil => intro hne _; exact absurd rfl hne
  | cons x xs ih =>
    intro _ hfree
    rcases xs with _ | ⟨y, ys⟩
    · exact splitOnSep_all_single sep x (hfree x (by simp))
    · have hx : sep ∉ x := hfree x (by simp)
      show splitOnSep sep (x ++ sep :: joinSep sep (y :: ys)) = x :: y :: ys
      rw [splitOnSep_append_sep sep x _ hx,
        ih (by simp) (fun seg hs => hfree seg (List.mem_cons_of_mem _ hs))]

/-!
## Claim-level helper lemmas for the classifiers
-/

theorem quadMatch_false_of_bad_seg (l seg : List Char)
    (hmem : seg ∈ splitOnSep '.' l) (hbad : octetRe seg = false) :
    quadMatch l = false := by
  cases hq : quadMatch l
  · rfl
  · exfalso
    unfold quadMatch at hq
    rcases hsegs : splitOnSep '.' l with
        _ | ⟨o1, _ | ⟨o2, _ | ⟨o3, _ | ⟨o4, _ | ⟨o5, os⟩⟩⟩⟩⟩ <;>
      rw [hsegs] at hq <;> try simp at hq
    rw [hsegs] at hmem
    obtain ⟨⟨⟨h1, h2⟩, h3⟩, h4⟩ :
        ((octetRe o1 = true ∧ octetRe o2 = true) ∧ octetRe o3 = true) ∧
          octetRe o4 = true := by simpa using hq
    rcases (by simpa using hmem : seg = o1 ∨ seg = o2 ∨ seg = o3 ∨ seg = o4) with
        rfl | rfl | rfl | rfl
    · rw [hbad] at h1; cases h1
    · rw [hbad] at h2; cases h2
    · rw [hbad] at h3; cases h3
    · rw [hbad] at h4; cases h4

theorem quadMatch_false_of_length (l : List Char)
    (h : (splitOnSep '.' l).length ≠ 4) : quadMatch l = false := by
  cases hq : quadMatch l
  · rfl
  · exfalso
    unfold quadMatch at hq
    rcases hsegs : splitOnSep '.' l with
        _ | ⟨o1, _ | ⟨o2, _ | ⟨o3, _ | ⟨o4, _ | ⟨o5, os⟩⟩⟩⟩⟩ <;>
      rw [hsegs] at hq <;> try simp at hq
    rw [hsegs] at h
    simp at h

theorem octetRe_repr (n : Nat) (hn : n ≤ 255) : octetRe (Nat.repr n).toList = true := by
  have hoct : ∀ m : Fin 256, octetRe (Nat.repr m.1).toList = true := by decide
  simpa using hoct ⟨n, by omega⟩

theorem repr_all_digits (n : Nat) (hn : n ≤ 255) :
    ∀ c ∈ (Nat.repr n).toList, isDigitCh c = true := by
  have hdig : ∀ m : Fin 256, ∀ c ∈ (Nat.repr m.1).toList, isDigitCh c = true := by decide
  simpa using hdig ⟨n, by omega⟩

theorem dot_not_mem_repr (n : Nat) (hn : n ≤ 255) : '.' ∉ (Nat.repr n).toList := by
  intro hmem
  have := repr_all_digits n hn '.' hmem
  exact absurd this (by decide)

theorem is_ipv4_quadStr (a b c d : Nat)
    (ha : a ≤ 255) (hb : b ≤ 255) (hc : c ≤ 255) (hd : d ≤ 255) :
    is_ipv4 (quadStr a b c d) = true := by
  have hsplit : splitOnSep '.' (quadStr a b c d) =
      [(Nat.repr a).toList, (Nat.repr b).toList, (Nat.repr c).toList, (Nat.repr d).toList] := by
    unfold quadStr
    rw [splitOnSep_append_sep '.' _ _ (dot_not_mem_repr a ha),
      splitOnSep_append_sep '.' _ _ (dot_not_mem_repr b hb),
      splitOnSep_append_sep '.' _ _ (dot_not_mem_repr c hc),
      splitOnSep_all_single '.' _ (dot_not_mem_repr d hd)]
  have hq : quadMatch (quadStr a b c d) = true := by
    unfold quadMatch
    rw [hsplit]
    simp only [Bool.and_eq_true]
    exact ⟨⟨⟨octetRe_repr a ha, octetRe_repr b hb⟩, octetRe_repr c hc⟩, octetRe_repr d hd⟩
  rw [is_ipv4, hq, Bool.true_or]

theorem is_ipv4_false_of_bad_octet (s seg : List Char)
    (hmem : seg ∈ splitOnSep '.' s) (hdigs : ∀ c ∈ seg, isDigitCh c = true)
    (hval : 256 ≤ decVal seg) : is_ipv4 s = false := by
  have hbad : octetRe seg = false := octetRe_false_of_large seg hval
  rw [is_ipv4, quadMatch_false_of_bad_seg s seg hmem hbad, Bool.false_or]
  by_cases hnl : s.getLast? = some '\n'
  · have hs : s = s.dropLast ++ ['\n'] := (List.dropLast_append_getLast? _ hnl).symm
    have hsp : splitOnSep '.' s = extendLast '\n' (splitOnSep '.' s.dropLast) := by
      conv_lhs => rw [hs]
      exact splitOnSep_append_single '.' '\n' (by decide) _
    rw [hsp] at hmem
    rcases mem_extendLast '\n' _ seg (splitOnSep_ne_nil '.' _) hmem with hmem' | ⟨x, hx, hxe⟩
    · rw [quadMatch_false_of_bad_seg _ seg hmem' hbad, Bool.and_false]
    · exfalso
      have hnlm : '\n' ∈ seg := by rw [hxe]; simp
      exact absurd (hdigs '\n' hnlm) (by decide)
  · simp [hnl]

theorem is_ipv4_false_of_segcount (s : List Char)
    (h : (splitOnSep '.' s).length ≠ 4) : is_ipv4 s = false := by
  rw [is_ipv4, quadMatch_false_of_length s h, Bool.false_or]
  by_cases hnl : s.getLast? = some '\n'
  · have hs : s = s.dropLast ++ ['\n'] := (List.dropLast_append_getLast? _ hnl).symm
    have hsp : splitOnSep '.' s = extendLast '\n' (splitOnSep '.' s.dropLast) := by
      conv_lhs => rw [hs]
      exact splitOnSep_append_single '.' '\n' (by decide) _
    have hlen : (splitOnSep '.' s.dropLast).length ≠ 4 := by
      intro h4
      apply h
      rw [hsp, extendLast_length, h4]
      decide
    rw [quadMatch_false_of_length _ hlen, Bool.and_false]
  · simp [hnl]

theorem labelRe_iff (t : List Char) : labelRe t = true ↔ LabelOk t := by
  rw [labelRe, LabelOk]
  simp only [Bool.and_eq_true, decide_eq_true_eq, List.all_eq_true]
  constructor
  · rintro ⟨⟨⟨⟨h1, h2⟩, h3⟩, h4⟩, h5⟩
    exact ⟨h1, h2, h3, h4, h5⟩
  · rintro ⟨h1, h2, h3, h4, h5⟩
    exact ⟨⟨⟨⟨h1, h2⟩, h3⟩, h4⟩, h5⟩

theorem finalRe_iff (t : List Char) : finalRe t = true ↔ FinalOk t := by
  rw [finalRe, FinalOk]
  simp only [Bool.and_eq_true, decide_eq_true_eq, List.all_eq_true]
  constructor
  · rintro ⟨⟨h1, h2⟩, h3⟩
    exact ⟨h1, h2, h3⟩
  · rintro ⟨h1, h2, h3⟩
    exact ⟨⟨h1, h2⟩, h3⟩

theorem mem_joinSep (sep : Char) :
    ∀ (segs : List (List Char)) (c : Char), c ∈ joinSep sep segs →
      c = sep ∨ ∃ seg, seg ∈ segs ∧ c ∈ seg := by
  intro segs
  induction segs with
  | nil => intro c hc; simp [joinSep] at hc
  | cons x xs ih =>
    intro c hc
    rcases xs with _ | ⟨y, ys⟩
    · exact Or.inr ⟨x, by simp, hc⟩
    · rcases List.mem_append.mp hc with hx | hrest
      · exact Or.inr ⟨x, by simp, hx⟩
      · rcases List.mem_cons.mp hrest with hsep | hj
        · exact Or.inl hsep
        · rcases ih c hj with h | ⟨seg, hseg, hcs⟩
          · exact Or.inl h
          · exact Or.inr ⟨seg, List.mem_cons_of_mem _ hseg, hcs⟩

/-- C7 (amended): `is_fqdn` accepts exactly the strings that, after
discarding a single trailing newline (which the Python regex anchors
admit), have total length 4–255 and consist of one or more
dot-separated labels of 1–63 alphanumeric-or-hyphen characters not
starting or ending with a hyphen, followed by a final all-alphabetic
label of 2–63 characters, matched case-insensitively. -/
theorem C7_thm (s : List Char) : is_fqdn s = true ↔ FqdnShape (stripNl s) := by
  constructor
  · intro h
    rw [is_fqdn, Bool.and_eq_true, Bool.and_eq_true] at h
    obtain ⟨⟨h4, h255⟩, hm⟩ := h
    refine ⟨of_decide_eq_true h4, of_decide_eq_true h255, ?_⟩
    have hne := splitOnSep_ne_nil '.' (stripNl s)
    rcases hsegs : splitOnSep '.' (stripNl s) with _ | ⟨s0, srest⟩
    · exact absurd hsegs hne
    rcases srest with _ | ⟨s1, srest2⟩
    · exfalso
      unfold fqdnMatch at hm
      rw [hsegs] at hm
      simp at hm
    unfold fqdnMatch at hm
    rw [hsegs] at hm
    simp only [Bool.and_eq_true] at hm
    obtain ⟨⟨hlen2, hlabs⟩, hfinm⟩ := hm
    rcases hfin : (s0 :: s1 :: srest2).getLast? with _ | fin
    · simp at hfin
    rw [hfin] at hfinm
    refine ⟨(s0 :: s1 :: srest2).dropLast, fin, ?_, ?_, ?_, (finalRe_iff fin).mp hfinm⟩
    · simp
    · rw [List.dropLast_append_getLast? fin hfin, ← hsegs, joinSep_splitOnSep]
    · intro lab hlab
      exact (labelRe_iff lab).mp (List.all_eq_true.mp hlabs lab hlab)
  · intro h
    obtain ⟨h4, h255, labels, fin, hlne, heq, hlabs, hfinok⟩ := h
    rw [is_fqdn, Bool.and_eq_true, Bool.and_eq_true]
    have hsplit : splitOnSep '.' (stripNl s) = labels ++ [fin] := by
      rw [heq]
      apply splitOnSep_joinSep
      · simp
      · intro seg hseg
        rcases List.mem_append.mp hseg with hl | hf
        · intro hdot
          exact absurd ((hlabs seg hl).2.2.1 '.' hdot) (by decide)
        · rw [List.mem_singleton] at hf
          subst hf
          intro hdot
          exact absurd (hfinok.2.2 '.' hdot) (by decide)
    refine ⟨⟨decide_eq_true h4, decide_eq_true h255⟩, ?_⟩
    unfold fqdnMatch
    rw [hsplit]
    rw [Bool.and_eq_true, Bool.and_eq_true]
    refine ⟨⟨?_, ?_⟩, ?_⟩
    · apply decide_eq_true
      rw [List.length_append, List.length_singleton]
      have := List.length_pos.mpr hlne
      omega
    · rw [List.dropLast_concat, List.all_eq_true]
      intro lab hlab
      exact (labelRe_iff lab).mpr (hlabs lab hlab)
    · rw [List.getLast?_concat]
      exact (finalRe_iff fin).mpr hfinok

/-- C7 counterexample: the string `"ab.cd\n"` (a trailing newline) is
accepted by `is_fqdn` — Python's `$` matches before a final newline —
but it is not of the claimed shape, so `is_fqdn` does not accept
*exactly* the strings the claim describes. -/
theorem C7_cex : is_fqdn (str "ab.cd\n") = true ∧ ¬ FqdnShape (str "ab.cd\n") := by
  constructor
  · decide
  · rintro ⟨_, _, labels, fin, hlne, heq, hlabs, hfinok⟩
    have hmem : '\n' ∈ joinSep '.' (labels ++ [fin]) := by
      rw [← heq]; decide
    rcases mem_joinSep '.' _ '\n' hmem with h | ⟨seg, hseg, hcs⟩
    · exact absurd h (by decide)
    · rcases List.mem_append.mp hseg with hl | hf
      · exact absurd ((hlabs seg hl).2.2.1 '\n' hcs) (by decide)
      · rw [List.mem_singleton] at hf
        subst hf
        exact absurd (hfinok.2.2 '\n' hcs) (by decide)

/-- C6: every well-formed dotted quad of four decimal numerals with
values 0–255 is accepted by `is_ipv4`; every string with a (digit)
segment of value ≥ 256, and every string with a dot-segment count other
than four, is rejected. -/
theorem C6_thm :
    (∀ a b c d : Nat, a ≤ 255 → b ≤ 255 → c ≤ 255 → d ≤ 255 →
      is_ipv4 (quadStr a b c d) = true) ∧
    (∀ s seg : List Char, seg ∈ splitOnSep '.' s → (∀ c ∈ seg, isDigitCh c = true) →
      256 ≤ decVal seg → is_ipv4 s = false) ∧
    (∀ s : List Char, (splitOnSep '.' s).length ≠ 4 → is_ipv4 s = false) :=
  ⟨is_ipv4_quadStr, is_ipv4_false_of_bad_octet, is_ipv4_false_of_segcount⟩

/-- Witness for C6 at concrete inputs: `8.8.8.8` accepted; `1.2.3.999`
(an octet ≥ 256) and `1.2.3` (three segments) rejected. -/
theorem C6_witness :
    is_ipv4 (quadStr 8 8 8 8) = true ∧ is_ipv4 (str "1.2.3.999") = false ∧
      is_ipv4 (str "1.2.3") = false :=
  ⟨C6_thm.1 8 8 8 8 (by decide) (by decide) (by decide) (by decide),
   C6_thm.2.1 (str "1.2.3.999") (str "999") (by decide) (by decide) (by decide),
   C6_thm.2.2 (str "1.2.3") (by decide)⟩

/-!
## C1 and C10: the interval-index lookup
-/

/-- C1 (amended): on a sorted index, whenever at least one stored key is
≤ the address's sort key, `org_by_addr` examines exactly the entry with
the rightmost such key (the floor entry), returning — via `checkEntry`,
which consults no neighbors — the label split at its first space with
every occurrence of `"AS"` removed from the number token if the address
lies within that entry's bounds, and `(absent, absent)` otherwise.
(When no stored key is ≤ the sort key the candidate is instead the last
entry — the wraparound of C10 — which is what keeps the original
universally-stated claim from holding.)  The claim's concrete round
trip holds: inserting `10.0.0.0–10.255.255.255 ↦ "AS100 Example Org"`
(the table's decimal rows `167772160`, `184549375`) and querying
`10.1.2.3` (= 167838211) yields `("100", "Example Org")`; querying
`11.0.0.0` (= 184549376) yields `(absent, absent)`. -/
theorem C1_thm :
    (∀ (gi : List GiEntry) (address : Nat), GiSorted gi →
      (∃ e ∈ gi, strLe e.key (Nat.repr address).toList = true) →
      ∃ e, floorEntry gi (Nat.repr address).toList = some e ∧
        org_by_addr gi address = some (checkEntry e address)) ∧
    org_by_addr (load_gi_org [(str "167772160", str "184549375", str "AS100 Example Org")])
        167838211 = some (some (str "100"), some (str "Example Org")) ∧
    org_by_addr (load_gi_org [(str "167772160", str "184549375", str "AS100 Example Org")])
        184549376 = some (none, none) := by
  refine ⟨?_, by decide, by decide⟩
  intro gi address hs hex
  have hpos : 0 < bisect gi (Nat.repr address).toList := by
    rw [bisect, List.countP_pos_iff]
    exact hex
  have hfloor := bisect_floor gi (Nat.repr address).toList hs hpos
  have hne : gi.filter (fun e => strLe e.key (Nat.repr address).toList) ≠ [] := by
    intro hnil
    rw [bisect, List.countP_eq_length_filter, hnil] at hpos
    simp at hpos
  have hsome : floorEntry gi (Nat.repr address).toList =
      some ((gi.filter (fun e => strLe e.key (Nat.repr address).toList)).getLast hne) :=
    List.getLast?_eq_getLast _ hne
  refine ⟨_, hsome, ?_⟩
  simp only [org_by_addr]
  rw [if_neg (by omega), hfloor, hsome]

/-- C1 counterexample: load rows keyed `"15"` and `"9"` — two disjoint
intervals `[15, 15]` and `[9, 13]`, stored in string order
`"15" < "9"` (decimal keys of different lengths do not sort
numerically, which the real reference table's 8–10-digit keys also
exhibit).  The sort key of address `10` is `"10"`, which precedes every
stored key — the claimed floor lookup designates no entry and so no
attribution — yet `org_by_addr` wraps around to the last entry
(key `"9"`, range `[9, 13]`, label `"AS7 Seven"`) and returns the
attribution `("7", "Seven")`. -/
theorem C1_cex :
    (∀ e ∈ load_gi_org
        [(str "15", str "15", str "AS1 One"), (str "9", str "13", str "AS7 Seven")],
      strLe e.key (Nat.repr 10).toList = false) ∧
    floorEntry
      (load_gi_org [(str "15", str "15", str "AS1 One"), (str "9", str "13", str "AS7 Seven")])
      (Nat.repr 10).toList = none ∧
    org_by_addr
      (load_gi_org [(str "15", str "15", str "AS1 One"), (str "9", str "13", str "AS7 Seven")])
      10 = some (some (str "7"), some (str "Seven")) := by
  refine ⟨by decide, by decide, by decide⟩

/-- Witness for C1 at a concrete sorted index and address with a floor
entry. -/
theorem C1_witness :
    ∃ e, floorEntry (load_gi_org [(str "167772160", str "184549375", str "AS100 Example Org")])
        (Nat.repr 167838211).toList = some e ∧
      org_by_addr (load_gi_org [(str "167772160", str "184549375", str "AS100 Example Org")])
        167838211 = some (checkEntry e 167838211) :=
  C1_thm.1 (load_gi_org [(str "167772160", str "184549375", str "AS100 Example Org")])
    167838211 (by unfold GiSorted; decide) (by decide)

/-- C10: the lookup is not total and can wrap around.  On a nonempty
index in which no stored key is ≤ the query's sort key, the bisect
position is 0 and the candidate examined is the entry at index `-1` —
the last entry, i.e. the greatest stored key of a sorted index — rather
than no candidate; and on an empty index the lookup raises `IndexError`
(`none`) instead of returning `(absent, absent)`. -/
theorem C10_thm :
    (∀ (gi : List GiEntry) (address : Nat) (hne : gi ≠ []),
      (∀ e ∈ gi, strLe e.key (Nat.repr address).toList = false) →
      bisect gi (Nat.repr address).toList = 0 ∧
        org_by_addr gi address = some (checkEntry (gi.getLast hne) address)) ∧
    (∀ address : Nat, org_by_addr [] address = none) := by
  constructor
  · intro gi address hne hall
    have hzero : bisect gi (Nat.repr address).toList = 0 := by
      rw [bisect, List.countP_eq_zero]
      intro e he
      simp only [Bool.not_eq_true]
      exact hall e he
    refine ⟨hzero, ?_⟩
    simp only [org_by_addr]
    rw [if_pos hzero, List.getLast?_eq_getLast gi hne]
  · intro address
    rfl

/-- Witness for C10: on the one-entry example index, the sort key `"1"`
of address 1 precedes the stored key, the candidate is the (last) entry,
whose range does not contain 1, so the result is `(absent, absent)`;
and the empty index raises. -/
theorem C10_witness :
    org_by_addr (load_gi_org [(str "167772160", str "184549375", str "AS100 Example Org")]) 1
      = some (none, none) ∧
    org_by_addr [] 1 = none := by
  constructor
  · have h := (C10_thm.1
      (load_gi_org [(str "167772160", str "184549375", str "AS100 Example Org")]) 1
      (by decide) (by decide)).2
    exact h.trans (by decide)
  · exact C10_thm.2 1

/-!
## C3 and C4: best-match selection and the date window
-/

theorem filter_date_overlap (records : List PDns) (dayStart : Nat) :
    filter_date records dayStart =
      records.filter (fun r =>
        decide (r.time_first ≤ dayStart + daySeconds ∧ dayStart ≤ r.time_last)) := by
  rw [filter_date, filter_before, filter_after, List.filter_filter]
  apply List.filter_congr
  intro r _
  by_cases h1 : dayStart ≤ r.time_last <;>
    by_cases h2 : r.time_first ≤ dayStart + daySeconds <;> simp [h1, h2]

/-- C3 (amended): over a record sequence whose maximal observation
count is strictly positive, `maxhits` returns the first record
attaining that maximum (strictly-greater replacement preserves
first-occurrence priority on ties), with every trailing root-zone dot
stripped from its hostname; for the empty sequence — and, because the
running maximum starts at 0, whenever every count is 0 — the result is
absent.  The tie example returns the first of two equal-count records. -/
theorem C3_thm :
    (∀ recs : List PDns,
      maxhits recs = if 0 < maxCount recs then specBest recs else none) ∧
    maxhits [] = none ∧
    maxhits [⟨str "first.example.", 3, 0, 0⟩, ⟨str "second.example", 3, 0, 0⟩]
      = some (str "first.example") := by
  refine ⟨?_, rfl, by decide⟩
  intro recs
  rw [maxhits, maxhitsAux_spec, specBest]

/-- C3 counterexample: a single record with observation count 0.  The
claim's selection rule designates that record (it alone attains the
highest count), but `maxhits` starts its running maximum at 0 and
replaces only on strictly greater counts, so it returns absent. -/
theorem C3_cex :
    maxhits [⟨str "a.example", 0, 0, 0⟩] = none ∧
    specBest [⟨str "a.example", 0, 0, 0⟩] = some (str "a.example") := by
  constructor <;> decide

/-- C4: the date-window filter keeps exactly the records whose
observation window overlaps the queried calendar day —
`first_seen ≤ window_end ∧ window_start ≤ last_seen` (overlap, not
containment), the window being the day's `00:00:00` through its last
second (the source's `%H:%M:%S` rendering of `time.max`).  A record
seen `23:00` of one day through `01:00` of the next is kept when
querying either day and dropped for the day after. -/
theorem C4_thm :
    (∀ (records : List PDns) (dayStart : Nat),
      filter_date records dayStart =
        records.filter (fun r =>
          decide (r.time_first ≤ dayStart + daySeconds ∧ dayStart ≤ r.time_last))) ∧
    (∀ n0 : Nat,
      filter_date [⟨str "h.example", 1, n0 + 82800, n0 + 90000⟩] n0 =
          [⟨str "h.example", 1, n0 + 82800, n0 + 90000⟩] ∧
      filter_date [⟨str "h.example", 1, n0 + 82800, n0 + 90000⟩] (n0 + 86400) =
          [⟨str "h.example", 1, n0 + 82800, n0 + 90000⟩] ∧
      filter_date [⟨str "h.example", 1, n0 + 82800, n0 + 90000⟩] (n0 + 172800) = []) := by
  refine ⟨filter_date_overlap, ?_⟩
  intro n0
  refine ⟨?_, ?_, ?_⟩ <;> rw [filter_date_overlap] <;>
    simp only [List.filter_cons, List.filter_nil, daySeconds]
  · rw [if_pos (decide_eq_true ⟨by omega, by omega⟩)]
  · rw [if_pos (decide_eq_true ⟨by omega, by omega⟩)]
  · rw [if_neg (fun h => by have := of_decide_eq_true h; omega)]

/-!
## Orchestrator inversion lemmas
-/

theorem winnow_cons_inv (env : Env) (r : Indicator) (rest : List Indicator)
    (w : List Indicator) (e : List Enriched) (lg : List LogEvent)
    (h : winnow env (r :: rest) = some (w, e, lg)) :
    ∃ w1 e1 l1 ws es ls, winnowStep env r = some (w1, e1, l1) ∧
      winnow env rest = some (ws, es, ls) ∧
      w = w1.toList ++ ws ∧ e = e1.toList ++ es ∧ lg = l1 ++ ls := by
  rcases h1 : winnowStep env r with _ | ⟨w1, e1, l1⟩ <;>
    rcases h2 : winnow env rest with _ | ⟨ws, es, ls⟩ <;>
    simp only [winnow, h1, h2] at h
  · exact Option.noConfusion h
  · exact Option.noConfusion h
  · exact Option.noConfusion h
  · rw [Option.some.injEq, Prod.mk.injEq, Prod.mk.injEq] at h
    obtain ⟨hw, he, hl⟩ := h
    exact ⟨w1, e1, l1, ws, es, ls, rfl, rfl, hw.symm, he.symm, hl.symm⟩

theorem winnowStep_cases (env : Env) (r : Indicator) (w1 : Option Indicator)
    (e1 : Option Enriched) (l1 : List LogEvent)
    (h : winnowStep env r = some (w1, e1, l1)) :
    (∃ ip, r.addr_type = str "IPv4" ∧ is_ipv4 r.addr = true ∧ parseIPv4 r.addr = some ip ∧
      reserved env.is_reserved env.is_private ip = true ∧
      w1 = none ∧ e1 = none ∧ l1 = [LogEvent.errorInvalid r.addr r.source]) ∨
    (∃ ip as_num as_name country resv hostname,
      r.addr_type = str "IPv4" ∧ is_ipv4 r.addr = true ∧ parseIPv4 r.addr = some ip ∧
      reserved env.is_reserved env.is_private ip = false ∧
      (if env.enrich_ip then enrich_IPv4 env.gi ip env.geo_data env.dnsdb
       else enrich_IPv4 env.gi ip env.geo_data none)
        = some (as_num, as_name, country, resv, hostname) ∧
      w1 = some r ∧ e1 = some (Enriched.ipv4 r as_num as_name country resv hostname) ∧
      l1 = []) ∨
    (∃ client, ¬(r.addr_type = str "IPv4" ∧ is_ipv4 r.addr = true) ∧
      r.addr_type = str "FQDN" ∧ is_fqdn r.addr = true ∧
      env.dnsdb = some client ∧ env.enrich_dns = true ∧
      w1 = some r ∧ e1 = some (Enriched.fqdn r (enrich_FQDN client r.addr r.date))) ∨
    (¬(r.addr_type = str "IPv4" ∧ is_ipv4 r.addr = true) ∧
      r.addr_type = str "FQDN" ∧ is_fqdn r.addr = true ∧
      (env.enrich_dns = false ∨ env.dnsdb = none) ∧
      w1 = some r ∧ e1 = none ∧ l1 = []) ∨
    (¬(r.addr_type = str "IPv4" ∧ is_ipv4 r.addr = true) ∧
      ¬(r.addr_type = str "FQDN" ∧ is_fqdn r.addr = true) ∧
      w1 = none ∧ e1 = none ∧ l1 = [LogEvent.errorBadType r.addr r.addr_type]) := by
  unfold winnowStep at h
  split at h
  · rename_i h1
    split at h
    · exact Option.noConfusion h
    · rename_i ip hp
      split at h
      · rename_i hres
        simp only [Option.some.injEq, Prod.mk.injEq] at h
        obtain ⟨hw, he, hl⟩ := h
        exact Or.inl ⟨ip, h1.1, h1.2, hp, hres, hw.symm, he.symm, hl.symm⟩
      · rename_i hres
        split at h
        · exact Option.noConfusion h
        · rename_i as_num as_name country resv hostname henr
          simp only [Option.some.injEq, Prod.mk.injEq] at h
          obtain ⟨hw, he, hl⟩ := h
          refine Or.inr (Or.inl ⟨ip, as_num, as_name, country, resv, hostname, h1.1, h1.2,
            hp, ?_, henr, hw.symm, he.symm, hl.symm⟩)
          cases hres2 : reserved env.is_reserved env.is_private ip
          · rfl
          · exact absurd hres2 hres
  · rename_i h1
    split at h
    · rename_i h2
      split at h
      · rename_i client hdb
        split at h
        · rename_i hed
          simp only [Option.some.injEq, Prod.mk.injEq] at h
          obtain ⟨hw, he, hl⟩ := h
          exact Or.inr (Or.inr (Or.inl ⟨client, h1, h2.1, h2.2, hdb, hed, hw.symm, he.symm⟩))
        · rename_i hed
          simp only [Option.some.injEq, Prod.mk.injEq] at h
          obtain ⟨hw, he, hl⟩ := h
          exact Or.inr (Or.inr (Or.inr (Or.inl ⟨h1, h2.1, h2.2,
            Or.inl (Bool.not_eq_true _ ▸ hed), hw.symm, he.symm, hl.symm⟩)))
      · rename_i hdb
        simp only [Option.some.injEq, Prod.mk.injEq] at h
        obtain ⟨hw, he, hl⟩ := h
        exact Or.inr (Or.inr (Or.inr (Or.inl ⟨h1, h2.1, h2.2, Or.inr hdb,
          hw.symm, he.symm, hl.symm⟩)))
    · rename_i h2
      simp only [Option.some.injEq, Prod.mk.injEq] at h
      obtain ⟨hw, he, hl⟩ := h
      exact Or.inr (Or.inr (Or.inr (Or.inr ⟨h1, h2, hw.symm, he.symm, hl.symm⟩)))

theorem enrich_IPv4_hostname (gi : List GiEntry) (ip : Nat)
    (geo : Nat → Option (List Char)) (db : Option DnsClient)
    (t : Option (List Char) × Option (List Char) × Option (List Char) ×
      Option (List Char) × Option (List Char))
    (h : enrich_IPv4 gi ip geo db = some t) :
    t.2.2.2.2 = hostLookup db ip := by
  unfold enrich_IPv4 at h
  rcases horg : org_by_addr gi ip with _ | ⟨as_num, as_name⟩ <;> rw [horg] at h
  · exact Option.noConfusion h
  · have h' := Option.some.inj h
    rw [← h']
    rfl

theorem winnowStep_wheat (env : Env) (r : Indicator) (w1 : Option Indicator)
    (e1 : Option Enriched) (l1 : List LogEvent)
    (h : winnowStep env r = some (w1, e1, l1)) :
    w1.toList = if survives env r = true then [r] else [] := by
  rcases winnowStep_cases env r w1 e1 l1 h with
      ⟨ip, ht, hi, hp, hres, hw, _, _⟩ |
      ⟨ip, a, b, c, d, e, ht, hi, hp, hres, _, hw, _, _⟩ |
      ⟨client, h1, ht, hf, hdb, hed, hw, _⟩ |
      ⟨h1, ht, hf, _, hw, _, _⟩ |
      ⟨h1, h2, hw, _, _⟩
  · subst hw
    unfold survives
    rw [if_pos (show r.addr_type = str "IPv4" ∧ is_ipv4 r.addr = true from ⟨ht, hi⟩), hp]
    show Option.toList none =
      if (!(reserved env.is_reserved env.is_private ip)) = true then [r] else []
    rw [hres]
    rfl
  · subst hw
    unfold survives
    rw [if_pos (show r.addr_type = str "IPv4" ∧ is_ipv4 r.addr = true from ⟨ht, hi⟩), hp]
    show Option.toList (some r) =
      if (!(reserved env.is_reserved env.is_private ip)) = true then [r] else []
    rw [hres]
    rfl
  · subst hw
    unfold survives
    rw [if_neg h1, if_pos (show r.addr_type = str "FQDN" ∧ is_fqdn r.addr = true from ⟨ht, hf⟩)]
    rfl
  · subst hw
    unfold survives
    rw [if_neg h1, if_pos (show r.addr_type = str "FQDN" ∧ is_fqdn r.addr = true from ⟨ht, hf⟩)]
    rfl
  · subst hw
    unfold survives
    rw [if_neg h1, if_neg h2]
    rfl

/-- C8: order preservation of the cleaned output — for any run of the
loop that completes, the cleaned output is exactly the subsequence of
input records (unchanged, no added fields) that survive classification
and reserved-range filtering, in input order. -/
theorem C8_thm : ∀ (env : Env) (batch w : List Indicator) (e : List Enriched)
    (lg : List LogEvent), winnow env batch = some (w, e, lg) →
    w = batch.filter (survives env) := by
  intro env batch
  induction batch with
  | nil =>
    intro w e lg h
    simp only [winnow, Option.some.injEq, Prod.mk.injEq] at h
    rw [← h.1]
    rfl
  | cons r rest ih =>
    intro w e lg h
    obtain ⟨w1, e1, l1, ws, es, ls, hstep, hrest, hw, he, hl⟩ :=
      winnow_cons_inv env r rest w e lg h
    subst hw
    rw [List.filter_cons, winnowStep_wheat env r w1 e1 l1 hstep, ih ws es ls hrest]
    by_cases hs : survives env r = true
    · simp [hs]
    · simp [hs]

/-!
## C2: gating of the reverse-DNS hostname lookup for IPv4 records
-/

/-- C2 (amended): for every enriched IPv4 entry, the
`resolved_hostname` field equals — when IPv4 enrichment is enabled —
the reverse passive-DNS best match whenever a DNS client is available
and absent when none is (the DNS-enrichment flag is *not* consulted on
this path; it gates only the FQDN path), and is absent when IPv4
enrichment is disabled. -/
theorem C2_thm : ∀ (env : Env) (batch w : List Indicator) (e : List Enriched)
    (lg : List LogEvent), winnow env batch = some (w, e, lg) →
    ∀ (rec : Indicator) (as_num as_name country resv hostname : Option (List Char)),
      Enriched.ipv4 rec as_num as_name country resv hostname ∈ e →
      ∃ ip, parseIPv4 rec.addr = some ip ∧
        hostname = (if env.enrich_ip then hostLookup env.dnsdb ip else none) := by
  intro env batch
  induction batch with
  | nil =>
    intro w e lg h rec as_num as_name country resv hostname hmem
    simp only [winnow, Option.some.injEq, Prod.mk.injEq] at h
    rw [← h.2.1] at hmem
    simp at hmem
  | cons r rest ih =>
    intro w e lg h rec as_num as_name country resv hostname hmem
    obtain ⟨w1, e1, l1, ws, es, ls, hstep, hrest, hw, he, hl⟩ :=
      winnow_cons_inv env r rest w e lg h
    subst he
    rcases List.mem_append.mp hmem with h1 | h2
    · rcases winnowStep_cases env r w1 e1 l1 hstep with
          ⟨_, _, _, _, _, _, he1, _⟩ |
          ⟨ip, a', b', c', d', hn', ht, hi, hp, hres, henr, _, he1, _⟩ |
          ⟨client, _, _, _, hdb, hed, _, he1⟩ |
          ⟨_, _, _, _, _, he1, _⟩ |
          ⟨_, _, _, he1, _⟩
      · rw [he1] at h1; simp at h1
      · rw [he1] at h1
        simp only [Option.toList_some, List.mem_singleton] at h1
        injection h1 with hr ha hb hc hd hhn
        refine ⟨ip, ?_, ?_⟩
        · rw [hr]; exact hp
        · by_cases hei : env.enrich_ip = true
          · rw [if_pos hei] at henr ⊢
            rw [hhn]
            exact enrich_IPv4_hostname env.gi ip env.geo_data env.dnsdb _ henr
          · rw [if_neg hei] at henr ⊢
            rw [hhn]
            exact enrich_IPv4_hostname env.gi ip env.geo_data none _ henr
      · rw [he1] at h1; simp at h1
      · rw [he1] at h1; simp at h1
      · rw [he1] at h1; simp at h1
    · exact ih ws es ls hrest rec as_num as_name country resv hostname h2

/-- C2 counterexample: IPv4 enrichment on, DNS enrichment *off*, DNS
client available.  The claim says the hostname lookup runs only if DNS
enrichment is configured, so `resolved_hostname` should be absent — but
the loop passes the client to `enrich_IPv4` whenever `enrich_ip` is
set, and the enriched entry carries the resolved hostname. -/
theorem C2_cex :
    envDnsOff.enrich_dns = false ∧
    winnow envDnsOff [recIp] =
      some ([recIp],
        [Enriched.ipv4 recIp none none none none (some (str "host.example"))], []) := by
  exact ⟨rfl, by decide⟩

/-- Witness for C2: with both flags off, the enriched IPv4 entry's
hostname is absent, as the amended theorem computes. -/
theorem C2_witness :
    ∃ ip, parseIPv4 recIp.addr = some ip ∧
      (none : Option (List Char)) = (if envOff.enrich_ip then hostLookup envOff.dnsdb ip
        else none) :=
  C2_thm envOff [recIp] [recIp] [Enriched.ipv4 recIp none none none none none] []
    (by decide) recIp none none none none none (by decide)

/-!
## C5: reserved records are dropped; C9: FQDN records without DNS enrichment
-/

/-- C5 (amended): `reserved` is true exactly when the address is in the
fixed reserved-range CIDR set or is classified private or reserved by
the (external) standard rules; every record whose address parses to a
reserved address appears in neither the cleaned nor the enriched
output; and every such record that is declared `IPv4` and passes
`is_ipv4` is reported with an error-level event naming the address and
its source.  (A reserved-addressed record whose declared type fails
validation is also dropped, but its error event names the address and
the declared type — see the counterexample.) -/
theorem C5_thm :
    (∀ (f g : Nat → Bool) (a : Nat),
      reserved f g a = true ↔ (inReservedRanges a = true ∨ g a = true ∨ f a = true)) ∧
    (∀ (env : Env) (batch w : List Indicator) (e : List Enriched) (lg : List LogEvent),
      winnow env batch = some (w, e, lg) →
      (∀ r ∈ w, ¬ reservedAddrP env r) ∧
      (∀ ent ∈ e, ¬ reservedAddrP env ent.record) ∧
      (∀ r ∈ batch, reservedAddrP env r → r.addr_type = str "IPv4" →
        is_ipv4 r.addr = true → LogEvent.errorInvalid r.addr r.source ∈ lg)) := by
  constructor
  · intro f g a
    rw [reserved, Bool.or_eq_true, Bool.or_eq_true]
    tauto
  · intro env batch
    induction batch with
    | nil =>
      intro w e lg h
      simp only [winnow, Option.some.injEq, Prod.mk.injEq] at h
      obtain ⟨hw, he, hl⟩ := h
      refine ⟨?_, ?_, ?_⟩
      · rw [← hw]; intro x hx; simp at hx
      · rw [← he]; intro ent hent; simp at hent
      · intro x hx; simp at hx
    | cons r rest ih =>
      intro w e lg h
      obtain ⟨w1, e1, l1, ws, es, ls, hstep, hrest, hw, he, hl⟩ :=
        winnow_cons_inv env r rest w e lg h
      obtain ⟨ih1, ih2, ih3⟩ := ih ws es ls hrest
      subst hw he hl
      refine ⟨?_, ?_, ?_⟩
      · intro x hx
        rcases List.mem_append.mp hx with h1 | h2
        · rcases winnowStep_cases env r w1 e1 l1 hstep with
              ⟨ip, ht, hi, hp, hres, hw1, _⟩ |
              ⟨ip, a', b', c', d', hn', ht, hi, hp, hres, henr, hw1, _⟩ |
              ⟨client, hc1, ht, hf, hdb, hed, hw1, _⟩ |
              ⟨hc1, ht, hf, _, hw1, _⟩ |
              ⟨hc1, hc2, hw1, _⟩
          · rw [hw1] at h1; simp at h1
          · rw [hw1] at h1
            simp only [Option.toList_some, List.mem_singleton] at h1
            subst h1
            rintro ⟨av, hpv, hrv⟩
            rw [hp] at hpv
            injection hpv with hav
            rw [← hav, hres] at hrv
            exact Bool.noConfusion hrv
          · rw [hw1] at h1
            simp only [Option.toList_some, List.mem_singleton] at h1
            subst h1
            rintro ⟨av, hpv, _⟩
            rw [parseIPv4_eq_none_of_is_fqdn _ hf] at hpv
            exact Option.noConfusion hpv
          · rw [hw1] at h1
            simp only [Option.toList_some, List.mem_singleton] at h1
            subst h1
            rintro ⟨av, hpv, _⟩
            rw [parseIPv4_eq_none_of_is_fqdn _ hf] at hpv
            exact Option.noConfusion hpv
          · rw [hw1] at h1; simp at h1
        · exact ih1 x h2
      · intro ent hent
        rcases List.mem_append.mp hent with h1 | h2
        · rcases winnowStep_cases env r w1 e1 l1 hstep with
              ⟨ip, ht, hi, hp, hres, _, he1, _⟩ |
              ⟨ip, a', b', c', d', hn', ht, hi, hp, hres, henr, _, he1, _⟩ |
              ⟨client, hc1, ht, hf, hdb, hed, _, he1⟩ |
              ⟨hc1, ht, hf, _, _, he1, _⟩ |
              ⟨hc1, hc2, _, he1, _⟩
          · rw [he1] at h1; simp at h1
          · rw [he1] at h1
            simp only [Option.toList_some, List.mem_singleton] at h1
            subst h1
            rintro ⟨av, hpv, hrv⟩
            rw [show (Enriched.ipv4 r a' b' c' d' hn').record = r from rfl, hp] at hpv
            injection hpv with hav
            rw [← hav, hres] at hrv
            exact Bool.noConfusion hrv
          · rw [he1] at h1
            simp only [Option.toList_some, List.mem_singleton] at h1
            subst h1
            rintro ⟨av, hpv, _⟩
            rw [show (Enriched.fqdn r (enrich_FQDN client r.addr r.date)).record = r from rfl,
              parseIPv4_eq_none_of_is_fqdn _ hf] at hpv
            exact Option.noConfusion hpv
          · rw [he1] at h1; simp at h1
          · rw [he1] at h1; simp at h1
        · exact ih2 ent h2
      · intro x hx hresv htype hip
        rcases List.mem_cons.mp hx with rfl | h2
        · rcases winnowStep_cases env x w1 e1 l1 hstep with
              ⟨ip, ht, hi, hp, hres, _, _, hl1⟩ |
              ⟨ip, a', b', c', d', hn', ht, hi, hp, hres, henr, _, _, hl1⟩ |
              ⟨client, hc1, _⟩ |
              ⟨hc1, _⟩ |
              ⟨hc1, _⟩
          · rw [hl1]
            exact List.mem_append_left _ (by simp)
          · exfalso
            obtain ⟨av, hpv, hrv⟩ := hresv
            rw [hp] at hpv
            injection hpv with hav
            rw [← hav, hres] at hrv
            exact Bool.noConfusion hrv
          · exact absurd ⟨htype, hip⟩ hc1
          · exact absurd ⟨htype, hip⟩ hc1
          · exact absurd ⟨htype, hip⟩ hc1
        · exact List.mem_append_right _ (ih3 x h2 hresv htype hip)

/-- C5 counterexample: the record `("0.0.0.1", "FQDN", …, "srcA", …)`
has a reserved address (`0.0.0.0/8`) and is indeed dropped from both
outputs, but — because its declared type fails validation — the only
error event names the address and the *declared type*, not the source,
so the claimed "error-level event naming the address and its source"
does not exist for it. -/
theorem C5_cex :
    parseIPv4 (str "0.0.0.1") = some 1 ∧
    reserved envOff.is_reserved envOff.is_private 1 = true ∧
    winnow envOff [recResBad] =
      some ([], [], [LogEvent.errorBadType (str "0.0.0.1") (str "FQDN")]) ∧
    LogEvent.errorInvalid (str "0.0.0.1") (str "srcA") ∉
      [LogEvent.errorBadType (str "0.0.0.1") (str "FQDN")] := by
  refine ⟨by decide, by decide, by decide, by decide⟩

/-- Witness for C5: a loopback record is dropped and its error event,
naming address and source, is in the log. -/
theorem C5_witness :
    LogEvent.errorInvalid (str "127.0.0.1") (str "feedA") ∈
      [LogEvent.errorInvalid (str "127.0.0.1") (str "feedA")] :=
  ((C5_thm.2 envOff [recRes] [] []
      [LogEvent.errorInvalid (str "127.0.0.1") (str "feedA")] (by decide)).2.2 recRes
    (by simp) ⟨2130706433, by decide, by decide⟩ rfl (by decide))

/-- C9: when DNS enrichment is disabled or no DNS client is available,
every valid FQDN record is appended to the cleaned output while no
enriched entry at all (not even a partial one) is produced for FQDN
records — the enriched output then contains no FQDN-derived entries —
so the enriched sequence can be strictly shorter than the cleaned one,
as the embedded instance exhibits. -/
theorem C9_thm : ∀ (env : Env) (batch w : List Indicator) (e : List Enriched)
    (lg : List LogEvent), winnow env batch = some (w, e, lg) →
    (env.enrich_dns = false ∨ env.dnsdb = none) →
    (∀ r ∈ batch, r.addr_type = str "FQDN" → is_fqdn r.addr = true → r ∈ w) ∧
    (∀ ent ∈ e, ∀ (rec : Indicator) (resolved : Option (List Char)),
      ent ≠ Enriched.fqdn rec resolved) ∧
    (∃ (env' : Env) (batch' w' : List Indicator) (e' : List Enriched)
      (lg' : List LogEvent),
      winnow env' batch' = some (w', e', lg') ∧ env'.enrich_dns = false ∧
      e'.length < w'.length) := by
  intro env batch
  induction batch with
  | nil =>
    intro w e lg h hoff
    simp only [winnow, Option.some.injEq, Prod.mk.injEq] at h
    obtain ⟨hw, he, hl⟩ := h
    refine ⟨?_, ?_, envOff, [recFq], [recFq], [], [], by decide, rfl, by decide⟩
    · intro x hx; simp at hx
    · rw [← he]; intro ent hent; simp at hent
  | cons r rest ih =>
    intro w e lg h hoff
    obtain ⟨w1, e1, l1, ws, es, ls, hstep, hrest, hw, he, hl⟩ :=
      winnow_cons_inv env r rest w e lg h
    obtain ⟨ih1, ih2, ih3⟩ := ih ws es ls hrest hoff
    subst hw he
    refine ⟨?_, ?_, ih3⟩
    · intro x hx htype hfq
      rcases List.mem_cons.mp hx with rfl | h2
      · rcases winnowStep_cases env x w1 e1 l1 hstep with
            ⟨ip, ht, _⟩ |
            ⟨ip, a', b', c', d', hn', ht, _⟩ |
            ⟨client, hc1, ht, hf, hdb, hed, hw1, _⟩ |
            ⟨hc1, ht, hf, _, hw1, _⟩ |
            ⟨hc1, hc2, _⟩
        · exfalso; rw [htype] at ht; exact absurd ht (by decide)
        · exfalso; rw [htype] at ht; exact absurd ht (by decide)
        · rw [hw1]
          exact List.mem_append_left _ (by simp)
        · rw [hw1]
          exact List.mem_append_left _ (by simp)
        · exact absurd ⟨htype, hfq⟩ hc2
      · exact List.mem_append_right _ (ih1 x h2 htype hfq)
    · intro ent hent rec resolved
      rcases List.mem_append.mp hent with h1 | h2
      · rcases winnowStep_cases env r w1 e1 l1 hstep with
            ⟨ip, ht, hi, hp, hres, _, he1, _⟩ |
            ⟨ip, a', b', c', d', hn', ht, hi, hp, hres, henr, _, he1, _⟩ |
            ⟨client, hc1, ht, hf, hdb, hed, _, he1⟩ |
            ⟨hc1, ht, hf, _, _, he1, _⟩ |
            ⟨hc1, hc2, _, he1, _⟩
        · rw [he1] at h1; simp at h1
        · rw [he1] at h1
          simp only [Option.toList_some, List.mem_singleton] at h1
          subst h1
          simp
        · exfalso
          rcases hoff with hoff | hoff
          · rw [hed] at hoff; exact Bool.noConfusion hoff
          · rw [hdb] at hoff; exact Option.noConfusion hoff
        · rw [he1] at h1; simp at h1
        · rw [he1] at h1; simp at h1
      · exact ih2 ent h2 rec resolved

/-- Witness for C9: with everything off, the valid FQDN record lands in
the cleaned output and the enriched output has no FQDN entry. -/
theorem C9_witness :
    recFq ∈ ([recFq] : List Indicator) ∧
    (∀ ent ∈ ([] : List Enriched), ∀ (rec : Indicator) (resolved : Option (List Char)),
      ent ≠ Enriched.fqdn rec resolved) := by
  have h := C9_thm envOff [recFq] [recFq] [] [] (by decide) (Or.inl rfl)
  exact ⟨h.1 recFq (by simp) rfl (by decide), h.2.1⟩

/-- Witness for C8: a four-record batch (a surviving IPv4 record, a
reserved one, a valid FQDN, a type mismatch) yields exactly the two
survivors, in input order. -/
theorem C8_witness :
    [recIp, recFq] = exBatch.filter (survives envOff) :=
  C8_thm envOff exBatch [recIp, recFq]
    [Enriched.ipv4 recIp none none none none none]
    [LogEvent.errorInvalid (str "127.0.0.1") (str "feedA"),
     LogEvent.errorBadType (str "zzz") (str "IPv4")] (by decide)
